import Mathlib

/-!
Verification of the tntcxx core against its natural-language specification.

The development shallowly embeds the segmented `tnt::Buffer` (src/Buffer/Buffer.hpp)
and the connection layer (`Connection`, `processResponse`, `getResponse`,
`hasSentBytes`, `hasNotRecvBytes`) as executable Lean functions.

Modelling conventions:
* `ds` stands for the template constant `Block::DATA_SIZE`; all buffer
  functions are parameterised by it, exactly as the C++ is templated over `N`.
* A block is `(id, data)`; the buffer is its block list plus the offsets
  `mBegin` (of the first valid byte in the head block) and `mEnd`
  (one past the last valid byte in the tail block).
* An iterator is `(block index, offset inside that block)`; its absolute
  byte position is `blockIdx * ds + off`.
* C++ code whose failure is an assertion (`assert`), a `std::abort`, or
  undefined behaviour (walking off the intrusive list) is modelled by
  `Option`, `none` being the failure.
* Uninitialised memory (fresh block ids and fresh block payloads) is fed in
  as explicit "junk" parameters, since the C++ leaves those bytes
  indeterminate.
-/

namespace Tnt

/-- Model of `Buffer::Block`: the sequence id used by `iterator::operator<`
plus the payload slots `data[DATA_SIZE]`. -/
structure BlockM where
  id : Nat
  data : List Nat
deriving Repr, DecidableEq, Inhabited

/-- Model of `tnt::Buffer`: the block list `m_blocks`, the offset `m_begin`
of the first valid byte in the head block and the offset `m_end` one past the
last valid byte in the tail block. -/
structure BufM where
  blocks : List BlockM
  mBegin : Nat
  mEnd : Nat
deriving Repr, DecidableEq, Inhabited

/-- Model of `Buffer::iterator`: the block it points into (by index into the
block list) and the offset of `m_position` inside that block. -/
structure IterM where
  bIdx : Nat
  off : Nat
deriving Repr, DecidableEq, Inhabited

/-- Absolute byte position of an iterator (block index times `DATA_SIZE`
plus in-block offset). -/
def absPos (ds : Nat) (it : IterM) : Nat := it.bIdx * ds + it.off

/-- Model of `iterator::operator<`: lexicographic comparison of
`(m_block->id, m_position)`; within one block the pointer order of
`m_position` is the offset order. -/
def iterLt (blocks : List BlockM) (a b : IterM) : Bool :=
  let ida := (blocks.getD a.bIdx default).id
  let idb := (blocks.getD b.bIdx default).id
  decide (ida < idb) || (decide (ida = idb) && decide (a.off < b.off))

/-! ### `Buffer::has` (Buffer.hpp:843-864) -/

/-- Translation of the `while (block != last_block)` loop of `Buffer::has`
together with its final line `size_t have = m_end - block->data;
return size <= have;`.  `remBlocks` is the number of hops left until the
last block. -/
def hasLoop (ds mEnd : Nat) : Nat → Nat → Bool
  | 0, n => decide (n ≤ mEnd)
  | k + 1, n => if n ≤ ds then true else hasLoop ds mEnd k (n - ds)

/-- Translation of `Buffer::has(itr, size)` over a buffer with `nblocks`
blocks and tail offset `mEnd`; the iterator is `(bIdx, off)`.  Note the
source computes the bytes of the last block from the block's *start*
(`m_end - block->data`), not from the iterator's position. -/
def hasM (ds nblocks mEnd bIdx off n : Nat) : Bool :=
  if bIdx ≠ nblocks - 1 then
    let have1 := ds - off
    if n ≤ have1 then true
    else hasLoop ds mEnd (nblocks - 1 - (bIdx + 1)) (n - have1)
  else
    decide (n ≤ mEnd)

/-- Written from the spec sentence "true iff `n` bytes remain from `it` to
`end()`": the number of bytes that actually remain from iterator
`(bIdx, off)` to the end of the buffer. -/
def bytesRemaining (ds nblocks mEnd bIdx off : Nat) : Nat :=
  (nblocks - 1 - bIdx) * ds + mEnd - off

/-! ### Futures map (`Connection::getResponse` / `futureIsReady`,
Connector.hpp) -/

/-- Model of a decoded `Response`: the header fields plus the frame size
that `processResponse` records. -/
structure RespM where
  sync : Nat
  code : Nat
  schemaId : Nat
  size : Nat
deriving Repr, DecidableEq, Inhabited

/-- Model of `std::unordered_map<rid_t, Response>`: a partial map from sync
ids to responses. -/
def FutMap : Type := Nat → Option RespM

/-- Translation of `Connection::futureIsReady`:
`futures.find(future) != futures.end()`. -/
def futureIsReadyM (m : FutMap) (f : Nat) : Bool := (m f).isSome

/-- Translation of `Connection::getResponse`: look the future up, abort in
debug mode (`none`) if it is absent, otherwise move the response out and
erase the entry. -/
def getResponseM (m : FutMap) (f : Nat) : Option (RespM × FutMap) :=
  match m f with
  | none => none
  | some r => some (r, fun k => if k = f then none else m k)

/-- Translation of `futures.insert({sync, response})`:
`std::unordered_map::insert` does not overwrite an existing key. -/
def futInsert (m : FutMap) (k : Nat) (v : RespM) : FutMap :=
  if (m k).isSome then m else fun q => if q = k then some v else m q

/-! ### `Buffer::dropFront` / `Buffer::dropBack` (Buffer.hpp:471-549) and
the I/O-layer guards `hasSentBytes` / `hasNotRecvBytes` (Connector.hpp) -/

/-- Translation of the block-freeing loop of `Buffer::dropFront`; running
out of blocks while bytes are still to be dropped is the assertion/UB
failure (`none`).  Returns the surviving blocks and the new `m_begin`. -/
def dropFrontLoop (ds : Nat) : List BlockM → Nat → Nat → Option (List BlockM × Nat)
  | [], _, _ => none
  | b :: rest, mBegin, size =>
    if size > ds - mBegin then dropFrontLoop ds rest 0 (size - (ds - mBegin))
    else some (b :: rest, mBegin + size)

/-- Translation of `Buffer::dropFront(size)`: the entry assertions
`size != 0` and `!rlist_empty(&m_blocks)` are the `none` cases. -/
def dropFrontM (ds : Nat) (buf : BufM) (size : Nat) : Option BufM :=
  if size = 0 then none
  else if buf.blocks.isEmpty then none
  else (dropFrontLoop ds buf.blocks buf.mBegin size).map
    (fun p => { buf with blocks := p.1, mBegin := p.2 })

/-- Translation of the block-freeing loop of `Buffer::dropBack`, running
over the block list from the tail (the list is passed reversed).  Returns
the surviving blocks (still reversed) and the new `m_end`. -/
def dropBackLoop (ds : Nat) : List BlockM → Nat → Nat → Option (List BlockM × Nat)
  | [], _, _ => none
  | b :: rest, mEnd, size =>
    if size > mEnd then dropBackLoop ds rest ds (size - mEnd)
    else some (b :: rest, mEnd - size)

/-- Translation of `Buffer::dropBack(size)`: the entry assertions
`size != 0` and `!rlist_empty(&m_blocks)` are the `none` cases. -/
def dropBackM (ds : Nat) (buf : BufM) (size : Nat) : Option BufM :=
  if size = 0 then none
  else if buf.blocks.isEmpty then none
  else (dropBackLoop ds buf.blocks.reverse buf.mEnd size).map
    (fun p => { buf with blocks := p.1.reverse, mEnd := p.2 })

/-- Translation of `hasSentBytes(conn, bytes)` acting on the outbound
buffer: `if (bytes > 0) conn.impl->outBuf.dropFront(bytes);`. -/
def hasSentBytesM (ds : Nat) (outBuf : BufM) (bytes : Nat) : Option BufM :=
  if bytes > 0 then dropFrontM ds outBuf bytes else some outBuf

/-- Translation of `hasNotRecvBytes(conn, bytes)` acting on the inbound
buffer: `if (bytes > 0) conn.impl->inBuf.dropBack(bytes);`. -/
def hasNotRecvBytesM (ds : Nat) (inBuf : BufM) (bytes : Nat) : Option BufM :=
  if bytes > 0 then dropBackM ds inBuf bytes else some inBuf

/-! ## Claim C1 -/

/-- C1: for every futures map and sync id `f`, if a response has been
decoded (`futureIsReady f` is true) then `getResponse f` returns exactly the
stored response, removes it from the map — so immediately afterwards
`futureIsReady f` is false and a second `getResponse f` would abort — and
if no response for `f` is present, `getResponse` aborts in debug mode
(result `none`). -/
theorem getResponse_delivers_once (m : FutMap) (f : Nat) :
    (futureIsReadyM m f = true →
      ∃ r m', getResponseM m f = some (r, m') ∧ m f = some r ∧
        futureIsReadyM m' f = false ∧ getResponseM m' f = none) ∧
    (futureIsReadyM m f = false → getResponseM m f = none) := by
  constructor
  · intro hready
    match hm : m f with
    | none => simp [futureIsReadyM, hm] at hready
    | some r =>
      refine ⟨r, fun k => if k = f then none else m k, ?_, ?_, ?_, ?_⟩
      · simp [getResponseM, hm]
      · rfl
      · simp [futureIsReadyM]
      · simp [getResponseM]
  · intro hnot
    match hm : m f with
    | none => simp [getResponseM, hm]
    | some r => simp [futureIsReadyM, hm] at hnot

/-- Witness for C1: a concrete map holding one response under sync 3,
obtained through the `unordered_map::insert` model. -/
theorem getResponse_delivers_once_witness :
    ∃ r m', getResponseM (futInsert (fun _ => none) 3 ⟨3, 0, 1, 5⟩) 3 = some (r, m') ∧
      (futInsert (fun _ => none) 3 ⟨3, 0, 1, 5⟩) 3 = some r ∧
      futureIsReadyM m' 3 = false ∧ getResponseM m' 3 = none :=
  (getResponse_delivers_once (futInsert (fun _ => none) 3 ⟨3, 0, 1, 5⟩) 3).1 (by decide)

/-! ## Claim C5 -/

/-- C5 (code bug): `Buffer::has` computes the bytes of the last block from
the block's start (`m_end - block->data`) rather than from the iterator's
position, so for an iterator inside the last block at a nonzero offset it
can report `true` although fewer than `n` bytes remain.  Failing input:
`DATA_SIZE = 4`, a single block with `m_end = 2`, the iterator at offset 1
and `n = 2`: one byte remains, yet `has` returns `true`. -/
theorem has_overcounts_in_last_block :
    hasM 4 1 2 0 1 2 = true ∧ bytesRemaining 4 1 2 0 1 = 1 ∧
      ¬ (2 ≤ bytesRemaining 4 1 2 0 1) := by
  decide

/-! ## Claim C10 -/

/-- C10: `dropFront` and `dropBack` abort (assert) on a zero size or an
empty block list, and the I/O layer guards uphold the positivity
precondition: `hasSentBytes`/`hasNotRecvBytes` invoke them only when the
reported byte count is positive, so a zero-length partial read or write
leaves the buffer untouched and never reaches the assertions. -/
theorem io_guards_protect_drop (ds : Nat) (buf : BufM) (b : Nat) :
    dropFrontM ds buf 0 = none ∧ dropBackM ds buf 0 = none ∧
    (buf.blocks = [] → dropFrontM ds buf b = none ∧ dropBackM ds buf b = none) ∧
    hasSentBytesM ds buf 0 = some buf ∧ hasNotRecvBytesM ds buf 0 = some buf ∧
    (0 < b → hasSentBytesM ds buf b = dropFrontM ds buf b) ∧
    (0 < b → hasNotRecvBytesM ds buf b = dropBackM ds buf b) := by
  refine ⟨?_, ?_, ?_, ?_, ?_, ?_, ?_⟩
  · simp [dropFrontM]
  · simp [dropBackM]
  · intro hempty
    constructor
    · simp [dropFrontM, hempty]
    · simp [dropBackM, hempty]
  · simp [hasSentBytesM]
  · simp [hasNotRecvBytesM]
  · intro hb; simp [hasSentBytesM, hb]
  · intro hb; simp [hasNotRecvBytesM, hb]

/-- Witness for C10 at a concrete buffer and byte count. -/
theorem io_guards_protect_drop_witness :
    ([] = ([] : List BlockM) →
      dropFrontM 4 ⟨[], 0, 0⟩ 2 = none ∧ dropBackM 4 ⟨[], 0, 0⟩ 2 = none) ∧
    (0 < 2 → hasSentBytesM 4 ⟨[], 0, 0⟩ 2 = dropFrontM 4 ⟨[], 0, 0⟩ 2) :=
  ⟨(io_guards_protect_drop 4 ⟨[], 0, 0⟩ 2).2.2.1,
   (io_guards_protect_drop 4 ⟨[], 0, 0⟩ 2).2.2.2.2.2.1⟩

/-! ### `Buffer::appendBack` (Buffer.hpp:437-469)

The allocation loop `while (size > left_in_block) newBlock(&new_blocks);`
is modelled with an explicit allocation budget `fuel` (an allocation beyond
the budget is the failure the allocator signals by throwing).  The ids of
freshly allocated blocks are *not* assigned by the source — `newBlock`
leaves `BlockBase::id` uninitialised and the renumbering loop runs over
`m_blocks` only, before the splice — so fresh ids are taken from the
explicit `junk` list standing for indeterminate memory. -/

/-- Translation of the allocation loop of `appendBack`.  Returns
`(some (fresh block ids in allocation order, residual size), allocated count)`
on success and `(none, allocated count)` when an allocation fails. -/
def allocLoop (ds : Nat) : Nat → Nat → Nat → List Nat → Option (List Nat × Nat) × Nat
  | size, left, 0, _ =>
    if size ≤ left then (some ([], size), 0) else (none, 0)
  | size, left, fuel + 1, junk =>
    if size ≤ left then (some ([], size), 0)
    else
      let res := allocLoop ds (size - left) ds fuel junk.tail
      (res.1.map (fun p => (junk.headD 0 :: p.1, p.2)), res.2 + 1)

/-- Translation of `Buffer::appendBack(size)`.  Mirrors the statement order
of the source: allocate into `new_blocks`, renumber the pre-existing
`m_blocks` starting at the old tail id, splice the fresh blocks at the
tail, then fix up `m_begin`/`m_end` and build the returned iterator.
Result: `(iterator or allocation failure, final buffer, blocks allocated,
blocks freed by the `Blocks` destructor)`.  Fresh payloads are
uninitialised; they are modelled as zero-filled slots. -/
def appendBackM (ds : Nat) (buf : BufM) (size : Nat) (junk : List Nat) (fuel : Nat) :
    Option IterM × BufM × Nat × Nat :=
  let isFirst := buf.blocks.isEmpty
  let left0 := if isFirst then 0 else ds - buf.mEnd
  match allocLoop ds size left0 fuel junk with
  | (none, cnt) => (none, buf, cnt, cnt)
  | (some (ids, resid), cnt) =>
    let lastId := if isFirst then 0 else (buf.blocks.getLastD default).id
    let renum := buf.blocks.mapIdx (fun k b => { b with id := lastId + k })
    let fresh := ids.map (fun j => ({ id := j, data := List.replicate ds 0 } : BlockM))
    let it : IterM := if isFirst then ⟨0, 0⟩ else ⟨buf.blocks.length - 1, buf.mEnd⟩
    (some it,
     { blocks := renum ++ fresh,
       mBegin := if isFirst then 0 else buf.mBegin,
       mEnd := if ids.isEmpty then buf.mEnd + resid else resid },
     cnt, 0)

/-- Number of valid bytes held by the buffer. -/
def totalBytes (ds : Nat) (buf : BufM) : Nat :=
  (buf.blocks.length - 1) * ds + buf.mEnd - buf.mBegin

/-- Structural well-formedness of a buffer state: the end offset lies in
the tail block, the begin offset in the head block, an empty block list
has both offsets zero, and with a single block the begin offset does not
cross the end offset. -/
def BufWF (ds : Nat) (buf : BufM) : Prop :=
  buf.mEnd ≤ ds ∧ buf.mBegin ≤ ds ∧
  (buf.blocks.isEmpty = true → buf.mBegin = 0 ∧ buf.mEnd = 0) ∧
  (buf.blocks.length = 1 → buf.mBegin ≤ buf.mEnd)

theorem allocLoop_spec (ds : Nat) :
    ∀ fuel size left junk ids resid cnt,
      allocLoop ds size left fuel junk = (some (ids, resid), cnt) →
      ids.length = cnt ∧
      ((cnt = 0 ∧ resid = size ∧ size ≤ left) ∨
       (0 < cnt ∧ size + ds = left + cnt * ds + resid ∧ resid ≤ ds ∧
        left < size ∧ 0 < resid))
  | 0, size, left, junk, ids, resid, cnt => by
    intro h
    by_cases hle : size ≤ left
    · simp only [allocLoop, if_pos hle, Prod.mk.injEq, Option.some.injEq] at h
      obtain ⟨⟨h1, h2⟩, h3⟩ := h
      subst h1; subst h2; subst h3
      exact ⟨rfl, Or.inl ⟨rfl, rfl, hle⟩⟩
    · simp [allocLoop, if_neg hle] at h
  | fuel + 1, size, left, junk, ids, resid, cnt => by
    intro h
    by_cases hle : size ≤ left
    · simp only [allocLoop, if_pos hle, Prod.mk.injEq, Option.some.injEq] at h
      obtain ⟨⟨h1, h2⟩, h3⟩ := h
      subst h1; subst h2; subst h3
      exact ⟨rfl, Or.inl ⟨rfl, rfl, hle⟩⟩
    · simp only [allocLoop, if_neg hle] at h
      rcases hres : allocLoop ds (size - left) ds fuel junk.tail with ⟨o, c⟩
      rw [hres] at h
      match o with
      | none => simp at h
      | some p =>
        rcases p with ⟨ids', resid'⟩
        simp only [Option.map_some', Prod.mk.injEq, Option.some.injEq] at h
        obtain ⟨⟨h1, h2⟩, h3⟩ := h
        subst h1; subst h2; subst h3
        obtain ⟨hlen, hdisj⟩ :=
          allocLoop_spec ds fuel (size - left) ds junk.tail ids' resid' c hres
        have hltn : left < size := Nat.lt_of_not_le hle
        refine ⟨by simpa using hlen, Or.inr ?_⟩
        rcases hdisj with ⟨hc0, hr, hsz⟩ | ⟨hcpos, heq, hrle, hlt, hrpos⟩
        · subst hc0; subst hr
          refine ⟨Nat.zero_lt_one, ?_, by omega, hltn, by omega⟩
          omega
        · refine ⟨Nat.succ_pos c, ?_, hrle, hltn, hrpos⟩
          have hm : (c + 1) * ds = c * ds + ds := Nat.succ_mul c ds
          generalize c * ds = X at heq hm
          omega

/-- Unfolding lemma: `appendBack` when an allocation fails.  The exception
propagates, the `Blocks` destructor frees all `c` freshly allocated blocks
and the buffer is left as it was. -/
theorem appendBackM_eq_none {ds : Nat} {buf : BufM} {size : Nat} {junk : List Nat}
    {fuel c : Nat}
    (hres : allocLoop ds size (if buf.blocks.isEmpty then 0 else ds - buf.mEnd)
      fuel junk = (none, c)) :
    appendBackM ds buf size junk fuel = (none, buf, c, c) := by
  simp only [appendBackM]
  rw [hres]

/-- Unfolding lemma: `appendBack` when all allocations succeed. -/
theorem appendBackM_eq_some {ds : Nat} {buf : BufM} {size : Nat} {junk : List Nat}
    {fuel c : Nat} {ids : List Nat} {resid : Nat}
    (hres : allocLoop ds size (if buf.blocks.isEmpty then 0 else ds - buf.mEnd)
      fuel junk = (some (ids, resid), c)) :
    appendBackM ds buf size junk fuel =
      (some (if buf.blocks.isEmpty then (⟨0, 0⟩ : IterM)
          else ⟨buf.blocks.length - 1, buf.mEnd⟩),
       { blocks := buf.blocks.mapIdx (fun k b =>
            { b with id := (if buf.blocks.isEmpty then 0
                else (buf.blocks.getLastD default).id) + k }) ++
            ids.map (fun j => ({ id := j, data := List.replicate ds 0 } : BlockM)),
         mBegin := if buf.blocks.isEmpty then 0 else buf.mBegin,
         mEnd := if ids.isEmpty then buf.mEnd + resid else resid },
       c, 0) := by
  simp only [appendBackM]
  rw [hres]

/-! ## Claim C7 -/

/-- C7: `appendBack(size)` is transactional with respect to allocation
failure.  On success no block is freed, exactly the allocated blocks are
spliced onto the block list, the buffer grows by exactly `size` bytes and
the returned iterator sits at the start of the reservation (the old end
position).  If an allocation fails, the buffer (block list, `m_begin`,
`m_end`) is unchanged and every block allocated so far by the call is
released by the `Blocks` destructor. -/
theorem appendBack_transactional (ds : Nat) (buf : BufM) (size : Nat)
    (junk : List Nat) (fuel : Nat) (hwf : BufWF ds buf) (hsz : 0 < size) :
    ((appendBackM ds buf size junk fuel).1 = none →
      (appendBackM ds buf size junk fuel).2.1 = buf ∧
      (appendBackM ds buf size junk fuel).2.2.2 =
        (appendBackM ds buf size junk fuel).2.2.1) ∧
    (∀ it, (appendBackM ds buf size junk fuel).1 = some it →
      (appendBackM ds buf size junk fuel).2.2.2 = 0 ∧
      (appendBackM ds buf size junk fuel).2.1.blocks.length =
        buf.blocks.length + (appendBackM ds buf size junk fuel).2.2.1 ∧
      totalBytes ds (appendBackM ds buf size junk fuel).2.1 =
        totalBytes ds buf + size ∧
      absPos ds it = buf.mBegin + totalBytes ds buf) := by
  obtain ⟨hend, hbeg, hemp, hone⟩ := hwf
  rcases hres : allocLoop ds size (if buf.blocks.isEmpty then 0 else ds - buf.mEnd)
      fuel junk with ⟨o, c⟩
  match o with
  | none =>
    rw [appendBackM_eq_none hres]
    refine ⟨fun _ => ⟨rfl, rfl⟩, fun it hit => by simp at hit⟩
  | some p =>
    rcases p with ⟨ids, resid⟩
    obtain ⟨hlen, hdisj⟩ := allocLoop_spec ds fuel size _ junk ids resid c hres
    rw [appendBackM_eq_some hres]
    refine ⟨fun hno => by simp at hno, fun it hit => ?_⟩
    have hitv : it = (if buf.blocks.isEmpty then (⟨0, 0⟩ : IterM)
        else ⟨buf.blocks.length - 1, buf.mEnd⟩) := by
      simpa using hit.symm
    refine ⟨rfl, ?_, ?_, ?_⟩
    · simp [List.length_mapIdx, hlen]
    · -- byte-count growth by exactly `size`
      by_cases hfirst : buf.blocks.isEmpty
      · have hb0 : buf.mBegin = 0 := (hemp hfirst).1
        have he0 : buf.mEnd = 0 := (hemp hfirst).2
        have hblk : buf.blocks = [] := List.isEmpty_iff.mp hfirst
        rw [if_pos hfirst] at hres
        rcases hdisj with ⟨hc0, hr, hszle⟩ | ⟨hcpos, heq, hrle, hlt, hrpos⟩
        · rw [if_pos hfirst] at hszle; omega
        · rw [if_pos hfirst] at heq
          obtain ⟨c', rfl⟩ : ∃ k, c = k + 1 := ⟨c - 1, by omega⟩
          have hidsne : ids.isEmpty = false := by
            rcases ids with _ | ⟨x, xs⟩
            · simp at hlen
            · rfl
          simp [totalBytes, hblk, hlen, hidsne, hb0, he0]
          have hm1 : (c' + 1) * ds = c' * ds + ds := Nat.succ_mul c' ds
          rw [hm1] at heq
          generalize c' * ds = X at heq ⊢
          omega
      · have hblkne : buf.blocks ≠ [] := by
          intro hnil; exact hfirst (List.isEmpty_iff.mpr hnil)
        obtain ⟨l, hl⟩ : ∃ l, buf.blocks.length = l + 1 :=
          ⟨buf.blocks.length - 1, by
            have := List.length_pos_of_ne_nil hblkne; omega⟩
        have hbb : buf.mBegin ≤ l * ds + buf.mEnd := by
          rcases Nat.eq_zero_or_pos l with hl0 | hlpos
          · subst hl0
            have := hone (by omega)
            omega
          · have : ds ≤ l * ds := Nat.le_mul_of_pos_left ds hlpos
            omega
        rw [if_neg hfirst] at hres
        rcases hdisj with ⟨hc0, hr, hszle⟩ | ⟨hcpos, heq, hrle, hlt, hrpos⟩
        · -- no fresh block: the bytes fit in the tail block
          have hids : ids = [] := by
            rw [hc0] at hlen; exact List.length_eq_zero.mp hlen
          rw [if_neg hfirst] at hszle
          subst hids
          subst hr
          simp [totalBytes, hfirst, hl]
          generalize l * ds = X at hbb ⊢
          omega
        · rw [if_neg hfirst] at heq
          obtain ⟨c', rfl⟩ : ∃ k, c = k + 1 := ⟨c - 1, by omega⟩
          have hidsne : ids.isEmpty = false := by
            rcases ids with _ | ⟨x, xs⟩
            · simp at hlen
            · rfl
          simp [totalBytes, hfirst, hl, hlen, hidsne]
          have hm1 : (c' + 1) * ds = c' * ds + ds := Nat.succ_mul c' ds
          have hm2 : (l + 1 + c') * ds = l * ds + ds + c' * ds := by ring
          rw [hm1] at heq
          rw [hm2]
          generalize c' * ds = X at heq ⊢
          generalize l * ds = Y at hbb ⊢
          omega
    · -- the returned iterator sits at the old end position
      rw [hitv]
      by_cases hfirst : buf.blocks.isEmpty
      · have hb0 : buf.mBegin = 0 := (hemp hfirst).1
        have he0 : buf.mEnd = 0 := (hemp hfirst).2
        have hblk : buf.blocks = [] := List.isEmpty_iff.mp hfirst
        simp [absPos, totalBytes, hblk, hb0, he0, hfirst]
      · have hblkne : buf.blocks ≠ [] := by
          intro hnil; exact hfirst (List.isEmpty_iff.mpr hnil)
        obtain ⟨l, hl⟩ : ∃ l, buf.blocks.length = l + 1 :=
          ⟨buf.blocks.length - 1, by
            have := List.length_pos_of_ne_nil hblkne; omega⟩
        have hbb : buf.mBegin ≤ l * ds + buf.mEnd := by
          rcases Nat.eq_zero_or_pos l with hl0 | hlpos
          · subst hl0
            have := hone (by omega)
            omega
          · have : ds ≤ l * ds := Nat.le_mul_of_pos_left ds hlpos
            omega
        simp [absPos, totalBytes, hfirst, hl]
        generalize l * ds = X at hbb ⊢
        omega

/-- Witness for C7: appending 5 bytes to a one-block buffer of
`DATA_SIZE = 4` holding 2 bytes, with budget for the two fresh blocks. -/
theorem appendBack_transactional_witness :
    (appendBackM 4 ⟨[⟨0, [9, 9, 0, 0]⟩], 0, 2⟩ 5 [7, 8] 2).2.2.2 = 0 ∧
    (appendBackM 4 ⟨[⟨0, [9, 9, 0, 0]⟩], 0, 2⟩ 5 [7, 8] 2).2.1.blocks.length =
      (⟨[⟨0, [9, 9, 0, 0]⟩], 0, 2⟩ : BufM).blocks.length +
        (appendBackM 4 ⟨[⟨0, [9, 9, 0, 0]⟩], 0, 2⟩ 5 [7, 8] 2).2.2.1 ∧
    totalBytes 4 (appendBackM 4 ⟨[⟨0, [9, 9, 0, 0]⟩], 0, 2⟩ 5 [7, 8] 2).2.1 =
      totalBytes 4 ⟨[⟨0, [9, 9, 0, 0]⟩], 0, 2⟩ + 5 ∧
    absPos 4 ⟨0, 2⟩ = (⟨[⟨0, [9, 9, 0, 0]⟩], 0, 2⟩ : BufM).mBegin +
      totalBytes 4 ⟨[⟨0, [9, 9, 0, 0]⟩], 0, 2⟩ :=
  (appendBack_transactional 4 ⟨[⟨0, [9, 9, 0, 0]⟩], 0, 2⟩ 5 [7, 8] 2
    ⟨by decide, by decide, by decide, by decide⟩ (by decide)).2 ⟨0, 2⟩ (by decide)

/-! ## Claim C2 -/

/-- C2 (code bug): `appendBack` renumbers only the pre-existing blocks of
`m_blocks` and never assigns ids to the freshly spliced blocks, whose
`BlockBase::id` stays uninitialised.  With junk values 5 (first call) and
3 (second call) the block list ends up with ids `[5, 3]`, so for the live
iterators `a = (block 0, offset 2)` and `b = (block 1, offset 0)` the
comparison `operator<` — lexicographic on `(id, position)` — yields
`b < a` although `position(a) = 2 < 4 = position(b)` and `a` precedes `b`
in block order, refuting the claimed ordering invariant. -/
theorem appendBack_leaves_fresh_ids_unassigned :
    ((appendBackM 4 (appendBackM 4 ⟨[], 0, 0⟩ 1 [5] 1).2.1 4 [3] 1).2.1.blocks.map
        BlockM.id = [5, 3]) ∧
    iterLt (appendBackM 4 (appendBackM 4 ⟨[], 0, 0⟩ 1 [5] 1).2.1 4 [3] 1).2.1.blocks
      ⟨1, 0⟩ ⟨0, 2⟩ = true ∧
    iterLt (appendBackM 4 (appendBackM 4 ⟨[], 0, 0⟩ 1 [5] 1).2.1 4 [3] 1).2.1.blocks
      ⟨0, 2⟩ ⟨1, 0⟩ = false ∧
    absPos 4 ⟨0, 2⟩ < absPos 4 ⟨1, 0⟩ := by
  decide


/-! ### `Buffer::getIOV` (Buffer.hpp:732-754) -/

/-- Translation of the `for (; vec_cnt < max_size;)` loop of
`Buffer::getIOV`: each entry is `(block index, start offset, length)`; on
the last block the length is `m_end - pos` and the loop breaks, otherwise
the entry covers the rest of the block and the walk moves to the next
block's begin. -/
def getIOVM (ds nblocks mEnd : Nat) : Nat → Nat → Nat → List (Nat × Nat × Nat)
  | _, _, 0 => []
  | bIdx, off, mx + 1 =>
    if bIdx = nblocks - 1 then [(bIdx, off, mEnd - off)]
    else (bIdx, off, ds - off) :: getIOVM ds nblocks mEnd (bIdx + 1) 0 mx

theorem getIOVM_head (ds nblocks mEnd bIdx off m : Nat) :
    ∀ e ∈ (getIOVM ds nblocks mEnd bIdx off m).head?, e.1 = bIdx ∧ e.2.1 = off := by
  match m with
  | 0 => simp [getIOVM]
  | m + 1 =>
    intro e he
    by_cases hlast : bIdx = nblocks - 1
    · simp only [getIOVM, if_pos hlast, List.head?_cons, Option.mem_def,
        Option.some.injEq] at he
      subst he
      exact ⟨rfl, rfl⟩
    · simp only [getIOVM, if_neg hlast, List.head?_cons, Option.mem_def,
        Option.some.injEq] at he
      subst he
      exact ⟨rfl, rfl⟩

/-! ## Claim C9 -/

/-- C9 (counterexample): with `DATA_SIZE = 2`, two blocks, `m_end = 1`
(3 valid bytes) and `max = 1`, `getIOV` from the buffer's start fills the
single permitted entry with the 2 bytes of the first block, so the iovec
lengths sum to 2 while `end() - it` is 3 — the claim that the entries
always cover exactly `end - it` bytes fails once the block count exceeds
`max`. -/
theorem getIOV_truncated_by_max :
    getIOVM 2 2 1 0 0 1 = [(0, 0, 2)] ∧
    ((getIOVM 2 2 1 0 0 1).map (fun e => e.2.2)).sum = 2 ∧
    bytesRemaining 2 2 1 0 0 = 3 ∧ (2 : Nat) ≠ 3 := by
  decide

/-- C9 (amended): `getIOV(it, vecs, max)` fills at most `max` entries
(exactly `min max (number of blocks from it's block through the last)`),
the entries are contiguous — each one starts where the previous one ends,
hence they are pairwise non-overlapping — and their lengths sum to exactly
the bytes from `it` to `end()` *provided* the blocks from `it`'s block
through the last number at most `max`; otherwise they sum to the
`max * DATA_SIZE - off` bytes of the first `max` blocks from `it`. -/
theorem getIOV_spec (ds nblocks mEnd : Nat) :
    ∀ mx bIdx off, bIdx < nblocks → off ≤ ds →
      (getIOVM ds nblocks mEnd bIdx off mx).length = min mx (nblocks - bIdx) ∧
      (getIOVM ds nblocks mEnd bIdx off mx).Chain'
        (fun e1 e2 => e1.1 * ds + e1.2.1 + e1.2.2 = e2.1 * ds + e2.2.1) ∧
      (nblocks - bIdx ≤ mx →
        ((getIOVM ds nblocks mEnd bIdx off mx).map (fun e => e.2.2)).sum =
          bytesRemaining ds nblocks mEnd bIdx off) ∧
      (mx < nblocks - bIdx →
        ((getIOVM ds nblocks mEnd bIdx off mx).map (fun e => e.2.2)).sum =
          mx * ds - off) := by
  intro mx
  induction mx with
  | zero =>
    intro bIdx off hb hoff
    refine ⟨by simp [getIOVM], by simp [getIOVM], ?_, ?_⟩
    · intro h; omega
    · intro _; simp [getIOVM]
  | succ m ih =>
    intro bIdx off hb hoff
    by_cases hlast : bIdx = nblocks - 1
    · subst hlast
      refine ⟨?_, ?_, ?_, ?_⟩
      · simp [getIOVM]; omega
      · simp [getIOVM]
      · intro _
        simp [getIOVM, bytesRemaining, Nat.sub_self]
      · intro h; omega
    · have hb' : bIdx + 1 < nblocks := by omega
      obtain ⟨hlen, hch, hsum, hover⟩ := ih (bIdx + 1) 0 hb' (Nat.zero_le ds)
      refine ⟨?_, ?_, ?_, ?_⟩
      · simp only [getIOVM, if_neg hlast, List.length_cons, hlen]
        omega
      · simp only [getIOVM, if_neg hlast]
        rw [List.chain'_cons']
        refine ⟨?_, hch⟩
        intro e he
        obtain ⟨he1, he2⟩ := getIOVM_head ds nblocks mEnd (bIdx + 1) 0 m e he
        have hm : (bIdx + 1) * ds = bIdx * ds + ds := Nat.succ_mul bIdx ds
        show bIdx * ds + off + (ds - off) = e.1 * ds + e.2.1
        rw [he1, he2, hm]
        generalize bIdx * ds = B
        omega
      · intro h
        have h' : nblocks - (bIdx + 1) ≤ m := by omega
        simp only [getIOVM, if_neg hlast, List.map_cons, List.sum_cons,
          hsum h', bytesRemaining]
        obtain ⟨k, hk⟩ : ∃ k, nblocks - 1 - bIdx = k + 1 :=
          ⟨nblocks - 2 - bIdx, by omega⟩
        have h1 : (nblocks - 1 - bIdx) * ds = k * ds + ds := by
          rw [hk]; ring
        have h2 : (nblocks - 1 - (bIdx + 1)) * ds = k * ds := by
          rw [show nblocks - 1 - (bIdx + 1) = k from by omega]
        rw [h1, h2]
        omega
      · intro h
        have h' : m < nblocks - (bIdx + 1) := by omega
        simp only [getIOVM, if_neg hlast, List.map_cons, List.sum_cons,
          hover h']
        have hm : (m + 1) * ds = m * ds + ds := Nat.succ_mul m ds
        rw [hm]
        omega

/-- Witness for C9 (amended): a two-block buffer with room for all
entries (`max = 5`). -/
theorem getIOV_spec_witness :
    (getIOVM 2 2 1 0 0 5).length = min 5 (2 - 0) ∧
    (getIOVM 2 2 1 0 0 5).Chain'
      (fun e1 e2 => e1.1 * 2 + e1.2.1 + e1.2.2 = e2.1 * 2 + e2.2.1) ∧
    (2 - 0 ≤ 5 →
      ((getIOVM 2 2 1 0 0 5).map (fun e => e.2.2)).sum =
        bytesRemaining 2 2 1 0 0) ∧
    (5 < 2 - 0 →
      ((getIOVM 2 2 1 0 0 5).map (fun e => e.2.2)).sum = 5 * 2 - 0) :=
  getIOV_spec 2 2 1 5 0 0 (by decide) (by decide)

/-! ### `Buffer::set` / `Buffer::get` (Buffer.hpp:756-829) -/

/-- Overwrite `chunk.length` slots of a block starting at `off`
(one `memcpy` step of `Buffer::set`). -/
def writeChunk (blk : BlockM) (off : Nat) (chunk : List Nat) : BlockM :=
  { blk with data := blk.data.take off ++ chunk ++ blk.data.drop (off + chunk.length) }

/-- Translation of the `while (size > 0)` loop of `Buffer::set`: copy
`min(size, left_in_block)` bytes into the current block, then move to the
next block's begin.  Running out of blocks while bytes are still to be
written dereferences the list sentinel in the source (UB), modelled by
`none`. -/
def setLoop (ds : Nat) : List BlockM → Nat → List Nat → Option (List BlockM)
  | bs, _, [] => some bs
  | [], _, _ :: _ => none
  | b :: bs, off, x :: xs =>
    let csz := min (x :: xs).length (ds - off)
    (setLoop ds bs 0 ((x :: xs).drop csz)).map
      (fun rest => writeChunk b off ((x :: xs).take csz) :: rest)

/-- Translation of `Buffer::set(itr, buf, size)`: run the copy loop from
the iterator's block. -/
def setM (ds : Nat) (blocks : List BlockM) (bIdx off : Nat) (data : List Nat) :
    Option (List BlockM) :=
  (setLoop ds (blocks.drop bIdx) off data).map
    (fun rest => blocks.take bIdx ++ rest)

/-- Translation of the `while (size > 0)` loop of `Buffer::get` (the same
walk as `set` with source and destination swapped). -/
def getLoop (ds : Nat) : List BlockM → Nat → Nat → Option (List Nat)
  | _, _, 0 => some []
  | [], _, _ + 1 => none
  | b :: bs, off, n + 1 =>
    let csz := min (n + 1) (ds - off)
    (getLoop ds bs 0 (n + 1 - csz)).map
      (fun rest => (b.data.drop off).take csz ++ rest)

/-- Translation of `Buffer::get(itr, buf, size)`. -/
def getM (ds : Nat) (blocks : List BlockM) (bIdx off n : Nat) : Option (List Nat) :=
  getLoop ds (blocks.drop bIdx) off n

theorem setLoop_getLoop (ds : Nat) :
    ∀ (bs : List BlockM) (off : Nat) (data : List Nat),
      (∀ b ∈ bs, b.data.length = ds) → off ≤ ds →
      data.length ≤ bs.length * ds - off →
      ∃ bs', setLoop ds bs off data = some bs' ∧
        getLoop ds bs' off data.length = some data
  | [], off, data => by
    intro _ hoff hcap
    have hdl : data = [] := by
      have : data.length = 0 := by simpa using hcap
      exact List.eq_nil_of_length_eq_zero this
    subst hdl
    exact ⟨[], rfl, rfl⟩
  | b :: bs, off, [] => by
    intro _ _ _
    exact ⟨b :: bs, rfl, rfl⟩
  | b :: bs, off, x :: xs => by
    intro hwf hoff hcap
    have hwfb : b.data.length = ds := hwf b (List.mem_cons_self b bs)
    have hwf' : ∀ q ∈ bs, q.data.length = ds := fun q hq => hwf q (List.mem_cons_of_mem b hq)
    have hcap' : ((x :: xs).drop (min (x :: xs).length (ds - off))).length ≤
        bs.length * ds - 0 := by
      rw [List.length_drop]
      have hm : (bs.length + 1) * ds = bs.length * ds + ds := Nat.succ_mul bs.length ds
      simp only [List.length_cons] at hcap ⊢
      rw [hm] at hcap
      generalize bs.length * ds = B at hcap ⊢
      omega
    obtain ⟨rest', hset', hget'⟩ :=
      setLoop_getLoop ds bs 0 ((x :: xs).drop (min (x :: xs).length (ds - off)))
        hwf' (Nat.zero_le ds) hcap'
    refine ⟨writeChunk b off ((x :: xs).take (min (x :: xs).length (ds - off))) :: rest',
      ?_, ?_⟩
    · simp only [setLoop]
      rw [hset']
      rfl
    · have hlenchunk : ((x :: xs).take (min (x :: xs).length (ds - off))).length =
          min (x :: xs).length (ds - off) := by
        rw [List.length_take]
        have := Nat.min_le_left (x :: xs).length (ds - off)
        omega
      simp only [List.length_cons, List.length_drop] at hget' hlenchunk ⊢
      simp only [getLoop]
      rw [hget']
      simp only [Option.map_some', Option.some.injEq]
      simp only [writeChunk, hlenchunk]
      have htakeoff : (b.data.take off).length = off := by
        rw [List.length_take]
        omega
      rw [List.append_assoc, List.drop_left' htakeoff, List.take_left' hlenchunk]
      exact List.take_append_drop _ _

/-! ## Claim C6 -/

/-- C6 (counterexample): with `DATA_SIZE = 4`, a single full block
(`m_end = 4`) and the iterator at offset 3, `has(it, 2)` returns `true`
(the last-block bug of `Buffer::has` compares against `m_end` from the
block's start), yet `set(it, b, 2)` walks past the final block after one
byte — `rlist_next_entry` past the tail, undefined behaviour in the
source, `none` in the model — so the claimed set-then-get roundtrip under
the precondition `has(it, n)` fails. -/
theorem set_walks_off_last_block :
    hasM 4 1 4 0 3 2 = true ∧ setM 4 [⟨0, [0, 0, 0, 0]⟩] 0 3 [7, 7] = none := by
  decide

/-- C6 (amended): for every buffer, iterator `(bIdx, off)` and byte
sequence `data` such that `data.length` bytes *actually remain* from the
iterator to `end()` (the condition `has` is specified to test), writing
`data` with `set` and reading the same count back with `get` returns
exactly `data`, including when the range spans block boundaries. -/
theorem set_get_roundtrip (ds : Nat) (blocks : List BlockM) (bIdx off : Nat)
    (data : List Nat) (mEnd : Nat)
    (hwf : ∀ b ∈ blocks, b.data.length = ds) (hb : bIdx < blocks.length)
    (hoff : off ≤ ds) (hme : mEnd ≤ ds)
    (hn : data.length ≤ bytesRemaining ds blocks.length mEnd bIdx off) :
    ∃ blocks', setM ds blocks bIdx off data = some blocks' ∧
      getM ds blocks' bIdx off data.length = some data := by
  have hwfd : ∀ b ∈ blocks.drop bIdx, b.data.length = ds := by
    intro q hq
    exact hwf q (List.mem_of_mem_drop hq)
  have hlend : (blocks.drop bIdx).length = blocks.length - bIdx :=
    List.length_drop _ _
  have hcap : data.length ≤ (blocks.drop bIdx).length * ds - off := by
    rw [hlend]
    obtain ⟨k, hk⟩ : ∃ k, blocks.length - bIdx = k + 1 :=
      ⟨blocks.length - 1 - bIdx, by omega⟩
    have hk' : blocks.length - 1 - bIdx = k := by omega
    rw [hk]
    have hm : (k + 1) * ds = k * ds + ds := Nat.succ_mul k ds
    rw [hm]
    unfold bytesRemaining at hn
    rw [hk'] at hn
    generalize k * ds = K at hn ⊢
    omega
  obtain ⟨bs', hset', hget'⟩ :=
    setLoop_getLoop ds (blocks.drop bIdx) off data hwfd hoff hcap
  refine ⟨blocks.take bIdx ++ bs', ?_, ?_⟩
  · simp only [setM]
    rw [hset']
    rfl
  · have htk : (blocks.take bIdx).length = bIdx := by
      rw [List.length_take]
      omega
    simp only [getM]
    rw [List.drop_left' htk]
    exact hget'

/-- Witness for C6 (amended): write 5 bytes across a block boundary
(`DATA_SIZE = 4`, two blocks, iterator at offset 2). -/
theorem set_get_roundtrip_witness :
    ∃ blocks', setM 4 [⟨0, [1, 2, 3, 4]⟩, ⟨1, [5, 6, 7, 8]⟩] 0 2 [9, 9, 9, 9, 9]
        = some blocks' ∧
      getM 4 blocks' 0 2 [9, 9, 9, 9, 9].length = some [9, 9, 9, 9, 9] :=
  set_get_roundtrip 4 [⟨0, [1, 2, 3, 4]⟩, ⟨1, [5, 6, 7, 8]⟩] 0 2 [9, 9, 9, 9, 9] 4
    (by decide) (by decide) (by decide) (by decide) (by decide)

/-! ### `Buffer::insert` / `Buffer::release` (Buffer.hpp:575-720)

`insert` first extends the buffer (`appendBack(size)`), then moves the
bytes of `[itr, old m_end)` forward chunk by chunk, copying back to
front across the block list; `release` locates `itr + size`, copies
forward chunk by chunk back onto `itr`, and finally drops `size` bytes
from the tail.  Both copy loops are translated statement by statement.
Note that the source-exhausted branch of `insert`'s loop (Buffer.hpp:628)
resumes the source at `src_block->begin()`, not at the `src_block_begin`
macro (Buffer.hpp:592) that accounts for `itr.m_position`; the
translation reproduces that line as written.

The iterator-list walk shared by both functions is modelled on the list
of absolute iterator positions in list order: starting from the copy of
`itr` (inserted immediately before `itr`), skip the run of iterators
with equal positions; from the first iterator whose position differs —
or, when every remaining iterator compares equal, from the last iterator
of the list — move every iterator to the end of the list by `size`
(forward for `insert`, backward for `release`). -/

/-- The iterator-walk of `Buffer::insert` on the list positions from the
copy of `itr` onward: skip the equal run, then `moveForward(size)` every
iterator to the end of the list; when the equal run reaches the list's
last iterator, that iterator alone is moved. -/
def adjTail (n : Nat) : List Nat → List Nat
  | [] => []
  | [c] => [c + n]
  | c :: r :: rs => if c = r then c :: adjTail n (r :: rs) else c :: ((r :: rs).map (· + n))

/-- Iterator effect of `Buffer::insert` when `itr` sits at index `i` of
the iterator list: iterators before `itr` are never visited. -/
def insertIters (iters : List Nat) (i n : Nat) : List Nat :=
  iters.take i ++ adjTail n (iters.drop i)

/-- The iterator-walk of `Buffer::release`: identical to `insert`'s but
with `moveBackward(size)`. -/
def adjTailB (n : Nat) : List Nat → List Nat
  | [] => []
  | [c] => [c - n]
  | c :: r :: rs => if c = r then c :: adjTailB n (r :: rs) else c :: ((r :: rs).map (· - n))

/-- Iterator effect of `Buffer::release` for `itr` at index `i`. -/
def releaseIters (iters : List Nat) (i n : Nat) : List Nat :=
  iters.take i ++ adjTailB n (iters.drop i)

/-- One `memmove` step of the copy loops: read `csz` bytes of block
`sIdx` starting at offset `sOff` and write them into block `dIdx` at
offset `dOff` (memmove semantics: the chunk is read before it is
written). -/
def blockCopy (blocks : List BlockM) (sIdx sOff dIdx dOff csz : Nat) : List BlockM :=
  let chunk := ((blocks.getD sIdx default).data.drop sOff).take csz
  blocks.set dIdx (writeChunk (blocks.getD dIdx default) dOff chunk)

/-- Translation of the backward copy loop of `Buffer::insert`
(Buffer.hpp:605-631).  Arguments after `fuel` mirror the C++ locals
`src_block/src/dst_block/dst/left_in_dst_block/left_in_src_block/
copy_chunk_sz` (pointers as block index and offset).  In the
source-exhausted branch the source is reset to the block's begin,
exactly as `src = src_block->begin();` (line 628) does — the
`src_block_begin` macro is not used there.  `fuel` bounds the loop;
`none` is a loop that does not terminate. -/
def insertCopyLoop (ds ib ioff : Nat) :
    Nat → List BlockM → Nat → Nat → Nat → Nat → Nat → Nat → Nat →
      Option (List BlockM)
  | 0, _, _, _, _, _, _, _, _ => none
  | fuel + 1, blocks, sIdx, sOff, dIdx, dOff, leftDst, leftSrc, csz =>
    let blocks1 := blockCopy blocks sIdx sOff dIdx dOff csz
    if leftDst > leftSrc then
      let leftDst1 := leftDst - csz
      if sIdx = ib then some blocks1
      else
        insertCopyLoop ds ib ioff fuel blocks1 (sIdx - 1) (ds - leftDst1) dIdx 0
          leftDst1 (ds - (if sIdx - 1 = ib then ioff else 0)) leftDst1
    else
      let leftSrc1 := leftSrc - csz
      insertCopyLoop ds ib ioff fuel blocks1 sIdx 0 (dIdx - 1) (ds - leftSrc1)
        ds leftSrc1 leftSrc1

/-- Translation of the byte effect of `Buffer::insert(itr, size)`: extend
the buffer via `appendBack(size)` (a propagated allocation failure is
`none`), then run the backward copy loop from the old tail block toward
`itr`'s block.  The iterator-list walk is `insertIters`. -/
def insertM (ds : Nat) (buf : BufM) (ib ioff n : Nat) (junk : List Nat)
    (fuel : Nat) : Option BufM :=
  let sb0 := buf.blocks.length - 1
  let srcEnd := buf.mEnd
  let r := appendBackM ds buf n junk fuel
  match r.1 with
  | none => none
  | some _ =>
    let gbuf := r.2.1
    let db0 := gbuf.blocks.length - 1
    let sbb0 := if sb0 = ib then ioff else 0
    let leftDst0 := gbuf.mEnd
    let leftSrc0 := srcEnd - sbb0
    let bs :=
      if leftDst0 > leftSrc0 then
        insertCopyLoop ds ib ioff (2 * gbuf.blocks.length + 2) gbuf.blocks sb0
          sbb0 db0 (gbuf.mEnd - leftSrc0) leftDst0 leftSrc0 (min leftSrc0 leftDst0)
      else
        insertCopyLoop ds ib ioff (2 * gbuf.blocks.length + 2) gbuf.blocks sb0
          (srcEnd - leftDst0) db0 0 leftDst0 leftSrc0 (min leftSrc0 leftDst0)
    bs.map (fun b => { gbuf with blocks := b })

/-- Translation of the source-locating loop of `Buffer::release`
(Buffer.hpp:663-670): advance `size` bytes from `itr`, hopping to the
next block whenever the step reaches the block's end. -/
def releaseLocate (ds : Nat) : Nat → Nat → Nat → Nat → Option (Nat × Nat)
  | 0, _, _, _ => none
  | fuel + 1, sIdx, sOff, step =>
    if step ≥ ds - sOff then releaseLocate ds fuel (sIdx + 1) 0 (step - (ds - sOff))
    else some (sIdx, sOff + step)

/-- Translation of the forward copy loop of `Buffer::release`
(Buffer.hpp:675-702), running until the source reaches the last block. -/
def releaseCopyLoop (ds lastIdx : Nat) :
    Nat → List BlockM → Nat → Nat → Nat → Nat → Nat → Nat → Nat →
      Option (List BlockM)
  | 0, _, _, _, _, _, _, _, _ => none
  | fuel + 1, blocks, sIdx, sOff, dIdx, dOff, leftDst, leftSrc, csz =>
    let blocks1 := blockCopy blocks sIdx sOff dIdx dOff csz
    if leftDst > leftSrc then
      let leftDst1 := leftDst - csz
      if sIdx = lastIdx then some blocks1
      else
        releaseCopyLoop ds lastIdx fuel blocks1 (sIdx + 1) 0 dIdx (dOff + csz)
          leftDst1 ds leftDst1
    else
      let leftSrc1 := leftSrc - csz
      releaseCopyLoop ds lastIdx fuel blocks1 sIdx (sOff + csz) (dIdx + 1) 0
        ds leftSrc1 leftSrc1

/-- Translation of the byte effect of `Buffer::release(itr, size)`:
locate `itr + size`, copy it forward onto `itr`, then `dropBack(size)`.
The iterator-list walk is `releaseIters`. -/
def releaseM (ds : Nat) (buf : BufM) (ib ioff n : Nat) : Option BufM :=
  match releaseLocate ds (n + 1) ib ioff n with
  | none => none
  | some s =>
    match releaseCopyLoop ds (buf.blocks.length - 1) (2 * buf.blocks.length + 2)
        buf.blocks s.1 s.2 ib ioff (ds - ioff) (ds - s.2)
        (min (ds - s.2) (ds - ioff)) with
    | none => none
    | some bs => dropBackM ds { buf with blocks := bs } n

/-- Valid byte content of a buffer: the block payloads flattened, cut at
`m_end` and starting at `m_begin`. -/
def validBytes (ds : Nat) (buf : BufM) : List Nat :=
  (((buf.blocks.map BlockM.data).flatten).take
    ((buf.blocks.length - 1) * ds + buf.mEnd)).drop buf.mBegin

/-- Failing input for C3 and C4: `DATA_SIZE = 4`, two blocks holding the
six bytes `10..15` (`m_end = 2` in the tail block), the iterator at
block 0, offset 1 (absolute position 1). -/
def bufC3 : BufM := ⟨[⟨0, [10, 11, 12, 13]⟩, ⟨1, [14, 15, 0, 0]⟩], 0, 2⟩

/-- State after `insert(it, 2)` on `bufC3` (block ids renumbered by the
`appendBack` call): the copy loop's last chunk put byte 10 — read from
the block's begin by Buffer.hpp:628 — at position 3, where the shift
should have put byte 11 from `itr`'s position. -/
def bufC3i : BufM := ⟨[⟨1, [10, 11, 12, 10]⟩, ⟨2, [12, 13, 14, 15]⟩], 0, 4⟩

/-- State after the subsequent `release(it, 2)` on `bufC3i`: position 1
now holds byte 10 instead of the original byte 11. -/
def bufC3r : BufM := ⟨[⟨1, [10, 10, 12, 13]⟩, ⟨2, [14, 15, 14, 15]⟩], 0, 2⟩

/-! ## Claim C3 -/

/-- C3 (code bug): on `bufC3` with live iterators at positions 1 (`it`)
and 6 (an `end()` iterator), `insert(it, 2)` followed by `release(it, 2)`
is not a no-op.  The iterator positions do restore to 1 and 6, but the
copy loop of `insert` reads the final chunk of the iterator's block from
`src_block->begin()` (Buffer.hpp:628) instead of from `itr.m_position`
(the `src_block_begin` macro defined for exactly this case at
Buffer.hpp:592), so the pair of calls turns the bytes
`[10,11,12,13,14,15]` into `[10,10,12,13,14,15]`. -/
theorem insert_release_not_noop :
    insertM 4 bufC3 0 1 2 [] 2 = some bufC3i ∧
    releaseM 4 bufC3i 0 1 2 = some bufC3r ∧
    insertIters [1, 6] 0 2 = [1, 8] ∧
    releaseIters [1, 8] 0 2 = [1, 6] ∧
    validBytes 4 bufC3 = [10, 11, 12, 13, 14, 15] ∧
    validBytes 4 bufC3r = [10, 10, 12, 13, 14, 15] ∧
    ¬ validBytes 4 bufC3r = validBytes 4 bufC3 := by
  decide

/-! ## Claim C4 -/

/-- C4 (code bug): after `insert(it, 2)` on `bufC3`, the bytes from the
iterator's position onward are not the old bytes shifted forward by 2:
position 3 (= 1 + 2) holds byte 10, copied from the block's begin by
Buffer.hpp:628, instead of byte 11 from position 1 (bytes before the
position are unchanged).  The tie-break clause fails as well: with no
iterator strictly after `it`, the walk moves the last equal-position
iterator — a lone iterator at position 1 ends at 2 after
`insert(it, 1)`. -/
theorem insert_miscopies_iterator_block :
    insertM 4 bufC3 0 1 2 [] 2 = some bufC3i ∧
    (validBytes 4 bufC3i).take 1 = (validBytes 4 bufC3).take 1 ∧
    (validBytes 4 bufC3i).drop (1 + 2) = [10, 12, 13, 14, 15] ∧
    (validBytes 4 bufC3).drop 1 = [11, 12, 13, 14, 15] ∧
    ¬ (validBytes 4 bufC3i).drop (1 + 2) = (validBytes 4 bufC3).drop 1 ∧
    insertIters [1] 0 1 = [2] := by
  decide

/-! ### `processResponse` (Connector.hpp, the Connection layer)

`decodeResponseSize` and `decodeResponse` live in ResponseDecoder.hpp,
which is not part of the sources; the spec fixes the frame layout
(`0xce <uint32 be length> <length bytes>`) and that the size reader needs
exactly `MP_RESPONSE_SIZE = 5` bytes, so the size reader is modelled from
the spec and the body decoder is a parameter. -/

/-- Model of `enum DecodeStatus` returned by `processResponse`. -/
inductive DecodeStatus where
  | DECODE_SUCC
  | DECODE_ERR
  | DECODE_NEEDMORE
deriving Repr, DecidableEq

/-- Bytes of `MP_RESPONSE_SIZE`: the `0xce` tag plus a big-endian uint32. -/
def MP_RESPONSE_SIZE : Nat := 5

/-- Connection state touched by `processResponse`: the inbound buffer, the
`endDecoded` iterator, the decoder's internal position (as an absolute
byte index), the error slot and the futures map. -/
structure ConnM where
  inBuf : BufM
  endDecoded : IterM
  decPos : Nat
  error : Option String
  futures : FutMap

/-- Physical byte content of the inbound buffer's blocks (including the
slots past `m_end`, which hold whatever the memory held — reads past the
valid data see them, exactly as the C++ does). -/
def physBytes (conn : ConnM) : List Nat :=
  (conn.inBuf.blocks.map BlockM.data).flatten

/-- Result of `iterator::moveForward(k)`: the walk moves to the next block
whenever the step exceeds the bytes left in the current block, so landing
exactly on a block boundary stays at offset `ds`. -/
def moveForwardM (ds : Nat) (it : IterM) (k : Nat) : IterM :=
  let t := it.off + k
  if t ≤ ds then ⟨it.bIdx, t⟩
  else ⟨it.bIdx + (t - 1) / ds, t - ((t - 1) / ds) * ds⟩

/-- Modelled from the spec: `ResponseDecoder::decodeResponseSize` is not
under src/ (only its caller `processResponse` is).  Per the spec a frame
starts with `0xce` followed by a big-endian uint32 length, and a corrupted
length prefix is unrecoverable (`-1`, upon which the caller aborts):
read 5 bytes at the decoder position, returning the length and the
advanced position. -/
def decodeResponseSizeM (bytes : List Nat) (decPos : Nat) : Option (Nat × Nat) :=
  if bytes.getD decPos 0 = 0xce then
    some (bytes.getD (decPos + 1) 0 * 16777216 + bytes.getD (decPos + 2) 0 * 65536 +
      bytes.getD (decPos + 3) 0 * 256 + bytes.getD (decPos + 4) 0, decPos + 5)
  else none

/-- Error message stored by the `DECODE_ERR` branch of `processResponse`. -/
def decodeErrMsg : String := "Failed to decode response, skipping bytes.."

/-- Translation of `processResponse(conn, result)` on the futures path
(`result == nullptr`).  The body decoder (`decodeResponse`, not under
src/) is the parameter `decBody`, mapping the frame's payload bytes to the
header fields `(sync, code, schema_id)` or to a failure; per the spec it
leaves the decoder past the frame on success.  `inputBufGC` only flushes
buffer bytes before the earliest live iterator every `GC_STEP_CNT` calls
and is not modelled.  `none` models the `std::abort` on a corrupted
length prefix. -/
def processResponseM (ds : Nat) (decBody : List Nat → Option (Nat × Nat × Nat))
    (conn : ConnM) : Option (DecodeStatus × ConnM) :=
  if ¬ (hasM ds conn.inBuf.blocks.length conn.inBuf.mEnd conn.endDecoded.bIdx
      conn.endDecoded.off MP_RESPONSE_SIZE = true) then
    some (DecodeStatus.DECODE_NEEDMORE, conn)
  else
    match decodeResponseSizeM (physBytes conn) conn.decPos with
    | none => none
    | some (sz, dp) =>
      let size := sz + MP_RESPONSE_SIZE
      if ¬ (hasM ds conn.inBuf.blocks.length conn.inBuf.mEnd conn.endDecoded.bIdx
          conn.endDecoded.off size = true) then
        some (DecodeStatus.DECODE_NEEDMORE,
          { conn with decPos := absPos ds conn.endDecoded })
      else
        match decBody (((physBytes conn).drop dp).take sz) with
        | none =>
          some (DecodeStatus.DECODE_ERR,
            { conn with
              error := some decodeErrMsg,
              endDecoded := moveForwardM ds conn.endDecoded size,
              decPos := dp })
        | some (sync, code, schema) =>
          some (DecodeStatus.DECODE_SUCC,
            { conn with
              futures := futInsert conn.futures sync ⟨sync, code, schema, size⟩,
              endDecoded := moveForwardM ds conn.endDecoded size,
              decPos := dp + sz })

/-- Failing input for C8: `DATA_SIZE = 16`, one block whose first 6 bytes
belong to an already-decoded frame, 3 bytes `ce 00 00` of a new frame
present (`m_end = 9`), `endDecoded` at offset 6; only 3 bytes are
available after `endDecoded`, fewer than `MP_RESPONSE_SIZE`. -/
def connShortFrame : ConnM :=
  { inBuf := ⟨[⟨0, [1, 1, 1, 1, 1, 1, 0xce, 0, 0, 0, 0, 0, 0, 0, 0, 0]⟩], 0, 9⟩,
    endDecoded := ⟨0, 6⟩,
    decPos := 6,
    error := none,
    futures := fun _ => none }

/-! ## Claim C8 -/

/-- C8 (code bug): on `connShortFrame` only 3 bytes follow `endDecoded`,
so by the claimed protocol `processResponse` must return
`DECODE_NEEDMORE` with the state unchanged.  Because `Buffer::has`
overcounts inside the last block (C5), the `MP_RESPONSE_SIZE` guard
passes, the size reader consumes uninitialised bytes past `m_end`, and
the call proceeds to the body decoder: with a failing body it returns
`DECODE_ERR`, sets the error slot and advances `endDecoded` to offset 11
— two bytes past `m_end = 9`. -/
theorem processResponse_ignores_missing_bytes :
    bytesRemaining 16 1 9 0 6 = 3 ∧
    hasM 16 1 9 0 6 MP_RESPONSE_SIZE = true ∧
    (processResponseM 16 (fun _ => none) connShortFrame).map Prod.fst =
      some DecodeStatus.DECODE_ERR ∧
    (processResponseM 16 (fun _ => none) connShortFrame).map
      (fun r => r.2.endDecoded) = some ⟨0, 11⟩ ∧
    (processResponseM 16 (fun _ => none) connShortFrame).map
      (fun r => r.2.error) = some (some decodeErrMsg) := by
  exact ⟨by decide, by decide, rfl, rfl, rfl⟩

end Tnt
